import Mathlib

/-!
Verification of the symbol-selection and range-reconciliation core of
dump_syms (src/windows/symbol.rs), shallowly embedded in Lean.

Strings are modelled as lists of characters; Rust u32 values are modelled
as Nat (all quantities involved are well below 2^32 in every stated
property, so wrap-around is not modelled except where a bound is stated
explicitly).  External collaborators (the type formatter, the address map,
the demangling library, section/contribution tables) are modelled as
explicit function parameters collected in a structure.  Fallible Rust
operations that can panic (unwrap) are modelled with Option, none meaning
an abort.
-/

namespace DumpSyms

/-- Rust std::u32::MAX. -/
def u32Max : Nat := 4294967295

/-- Result of name resolution (enum FuncName in symbol.rs). -/
inductive FuncName where
  | Undecorated : List Char → FuncName
  | Unknown : List Char × Nat → FuncName
deriving DecidableEq

/-- Numeric value of a decimal digit character. -/
def digitVal (c : Char) : Nat := c.toNat - 48

/-- Value of a decimal digit string (helper for the model of str::parse). -/
def strNatVal (s : List Char) : Nat := s.foldl (fun a c => a * 10 + digitVal c) 0

/-- Digit-run acceptance of str::parse::<u32>: one or more decimal digits
whose value fits in u32. -/
def parseU32core (ds : List Char) : Option Nat :=
  if ds = [] then none
  else if ds.all (fun c => c.isDigit) then
    if strNatVal ds ≤ u32Max then some (strNatVal ds) else none
  else none

/-- Model of Rust str::parse::<u32>: an optional leading plus sign followed by
one or more decimal digits whose value fits in u32. -/
def parseU32 (s : List Char) : Option Nat :=
  parseU32core (if s.head? = some '+' then s.drop 1 else s)

/-- Model of str::rsplitn(2, a): split a string at its LAST occurrence of the
separator, returning (part before, part after); none when the separator does
not occur (rsplitn then yields a single part). -/
def rsplitAt2 (a : Char) (sub : List Char) : Option (List Char × List Char) :=
  match sub.reverse.dropWhile (fun c => c ≠ a) with
  | [] => none
  | _ :: beforeRev => some (beforeRev.reverse, (sub.reverse.takeWhile (fun c => c ≠ a)).reverse)

/-- FuncName::get_unknown: calling-convention heuristic for names the
demangler could not classify. -/
def FuncName.get_unknown (name : List Char) : FuncName :=
  if name = [] then .Unknown (name, 0)
  else
    let first := name.take 1
    let sub := name.drop 1
    if (first ≠ ['_'] ∧ first ≠ ['@']) ∨ sub.any (fun c => c = ':' || c = '(') = true then
      .Unknown (name, 0)
    else
      match rsplitAt2 '@' sub with
      | none => .Unknown (if first = ['_'] then sub else name, 0)
      | some (bef, aft) =>
        match parseU32 aft with
        | some n =>
          .Unknown (bef, if first = ['@'] then (if n > 8 then n - 8 else 0) else n)
        | none => .Unknown (if first = ['_'] then sub else name, 0)

/-- pdb::PdbInternalSectionOffset. -/
structure PdbInternalSectionOffset where
  sect : Nat
  offset : Nat
deriving DecidableEq

/-- EBPInfo: one frame-relative variable (type index, frame offset). -/
structure EBPInfo where
  type_index : Nat
  offset : Nat
deriving DecidableEq

/-- SelectedSymbol: a mutable candidate symbol during accumulation.  The
source-line collection is elided: no claim concerns line tables and the Lines
type lives outside the analysed file. -/
structure SelectedSymbol where
  name : List Char
  type_index : Nat
  module_index : Option Nat
  is_public : Bool
  is_multiple : Bool
  offset : PdbInternalSectionOffset
  sym_offset : Option PdbInternalSectionOffset
  len : Nat
  parameter_size : Nat
  ebp : List EBPInfo
  id : Nat
deriving DecidableEq

/-- PDBSymbol: a finalized symbol (line table elided, as above). -/
structure PDBSymbol where
  name : List Char
  is_public : Bool
  is_multiple : Bool
  rva : Nat
  len : Nat
  parameter_size : Nat
  id : Nat
deriving DecidableEq, Inhabited

/-- PDBSymbol::get_from: re-emit a finalized symbol over a sub-range. -/
def PDBSymbol.get_from (s : PDBSymbol) (rva len : Nat) : PDBSymbol :=
  { s with rva := rva, len := len }

/-- The canonical table BTreeMap<u32, PDBSymbol>, modelled as an association
list sorted by key. -/
abbrev PDBSymbols := List (Nat × PDBSymbol)

/-- BTreeMap::insert for the canonical table (sorted insert, replacing an
existing entry with an equal key). -/
def btreeInsert (k : Nat) (v : PDBSymbol) : PDBSymbols → PDBSymbols
  | [] => [(k, v)]
  | (k', v') :: t =>
    if k < k' then (k, v) :: (k', v') :: t
    else if k = k' then (k, v) :: t
    else (k', v') :: btreeInsert k v t

/-- Strict lexicographic order on (rva, len) keys of the range map. -/
def pairLt (a b : Nat × Nat) : Bool := a.1 < b.1 || (a.1 = b.1 && a.2 < b.2)

/-- The range map BTreeMap<(u32, u32), usize>, modelled as an association
list sorted by lexicographic key order. -/
abbrev Ranges := List ((Nat × Nat) × Nat)

/-- BTreeMap::insert for the range map. -/
def rangesInsert (k : Nat × Nat) (v : Nat) : Ranges → Ranges
  | [] => [(k, v)]
  | (k', v') :: t =>
    if pairLt k k' then (k, v) :: (k', v') :: t
    else if k = k' then (k, v) :: t
    else (k', v') :: rangesInsert k v t

/-- External collaborators: type formatter, demangling library, address map,
section/contribution tables. -/
structure Externals where
  format_function : List Char → Nat → Nat → Option (List Char)
  get_type_size : Nat → Nat → Nat
  detect_language : List Char → Bool
  try_demangle : List Char → Option (List Char)
  fix_symbol_name : List Char → List Char
  to_internal_rva : PdbInternalSectionOffset → Option Nat
  to_rva : PdbInternalSectionOffset → Option Nat
  rva_ranges : Nat → Nat → List (Nat × Nat)
  sections_is_code : Nat → Bool
  contributions_is_code : Nat → Nat → Bool

/-- Replace every (non-overlapping, leftmost-first) occurrence of a pattern,
modelling Rust str::replace. -/
def replaceAll (pat rep : List Char) : List Char → List Char
  | [] => []
  | c :: rest =>
    if h : pat ≠ [] ∧ pat.isPrefixOf (c :: rest) then
      rep ++ replaceAll pat rep ((c :: rest).drop pat.length)
    else
      c :: replaceAll pat rep rest
termination_by l => l.length
decreasing_by
  · simp only [List.length_drop, List.length_cons]
    have hp : 1 ≤ pat.length := by
      cases hpat : pat with
      | nil => exact absurd hpat h.1
      | cons a t => simp
    omega
  · simp

/-- fix_mangled_name: strip calling-convention and access decorations. -/
def fix_mangled_name (name : List Char) : List Char :=
  replaceAll (String.toList "  ") (String.toList " ")
    (replaceAll (String.toList "(void)") []
      (replaceAll (String.toList "private: ") []
        (replaceAll (String.toList "protected: ") []
          (replaceAll (String.toList "public: ") []
            (replaceAll (String.toList "__cdecl") [] name)))))

/-- demangle: try language detection and demangling, falling back to the
calling-convention heuristic. -/
def demangle (ext : Externals) (ident : List Char) : FuncName :=
  if ext.detect_language ident = false then FuncName.get_unknown ident
  else
    match ext.try_demangle (ext.fix_symbol_name ident) with
    | some dem =>
      if dem = ident then FuncName.get_unknown dem
      else .Undecorated (fix_mangled_name dem)
    | none => .Undecorated ident

/-- SelectedSymbol::get_und: resolve the display name of a candidate. -/
def SelectedSymbol.get_und (ext : Externals) (s : SelectedSymbol) : FuncName :=
  if s.name = [] then .Undecorated (String.toList "<name omitted>")
  else if s.type_index = 0 then demangle ext s.name
  else
    match ext.format_function s.name (s.module_index.getD 0) s.type_index with
    | some f => .Undecorated f
    | none => FuncName.get_unknown s.name

/-- SelectedSymbol::get_stack_param_size (pure value; the Rust method also
caches the result in parameter_size and drains ebp, neither of which is
observed afterwards by the pipeline modelled here). -/
def SelectedSymbol.get_stack_param_size (ext : Externals) (s : SelectedSymbol) : Nat :=
  if s.ebp = [] then s.parameter_size
  else
    let mi := s.module_index.getD 0
    let p := s.ebp.foldl
      (fun acc i => (min acc.1 i.offset, max acc.2 (i.offset + ext.get_type_size mi i.type_index)))
      (u32Max, 0)
    let min_start := max p.1 4
    if min_start < p.2 then ((p.2 + 3) / 4) * 4 - min_start else 0

/-- SelectedSymbol::mv_to_pdb_symbol (the rva argument only feeds the elided
line-table finalization). -/
def SelectedSymbol.mv_to_pdb_symbol (ext : Externals) (s : SelectedSymbol) (_rva : Nat) :
    PDBSymbol × PdbInternalSectionOffset :=
  let q : List Char × Nat :=
    match s.get_und ext with
    | .Undecorated nm => (nm, s.get_stack_param_size ext)
    | .Unknown (nm, sps) => (nm, sps)
  ({ name := q.1, is_public := s.is_public, is_multiple := s.is_multiple, rva := 0,
     len := s.len, parameter_size := q.2, id := s.id }, s.offset)

/-- Lexicographic (byte-order) comparison of strings, modelling Rust
String comparison. -/
def strLtB : List Char → List Char → Bool
  | _, [] => false
  | [], _ :: _ => true
  | a :: as, b :: bs => a.toNat < b.toNat || (a = b && strLtB as bs)

/-- pdb::PublicSymbol (the fields the analysed code reads). -/
structure PublicSymbol where
  code : Bool
  function : Bool
  name : List Char
  offset : PdbInternalSectionOffset
deriving DecidableEq

/-- SelectedSymbol::update_public: merge a public record into an existing
candidate at the same address. -/
def SelectedSymbol.update_public (s : SelectedSymbol) (symbol : PublicSymbol) : SelectedSymbol :=
  if s.is_public then
    let s1 := { s with is_multiple := true }
    if strLtB symbol.name s1.name then { s1 with name := symbol.name, offset := symbol.offset }
    else s1
  else
    let s1 :=
      if s.type_index = 0 then
        match s.sym_offset with
        | some so => if so = symbol.offset then { s with name := symbol.name } else s
        | none => s
      else s
    match FuncName.get_unknown symbol.name with
    | .Unknown (nm, sps) =>
      if nm = s1.name ∨ symbol.name = s1.name then { s1 with parameter_size := sps } else s1
    | .Undecorated _ => s1

/-- RvaSymbols: one module's accumulating symbol table.  The HashMap is
modelled as an association list in insertion order (drain order is fixed to
list order). -/
structure RvaSymbols where
  map : List (Nat × SelectedSymbol)
  rva : Nat
  symbol : Option SelectedSymbol
  last_id : Nat
deriving DecidableEq

/-- The empty RvaSymbols (Default::default()). -/
def initRva : RvaSymbols := { map := [], rva := 0, symbol := none, last_id := 0 }

/-- HashMap::get on the candidate map (first match; keys are unique in every
reachable state). -/
def assocFind (k : Nat) : List (Nat × SelectedSymbol) → Option SelectedSymbol
  | [] => none
  | (k', v) :: t => if k' = k then some v else assocFind k t

/-- In-place mutation of the entry at a key (HashMap::get_mut / entry API). -/
def mapMutate (k : Nat) (f : SelectedSymbol → SelectedSymbol) :
    List (Nat × SelectedSymbol) → List (Nat × SelectedSymbol)
  | [] => []
  | (k', v) :: t => if k' = k then (k', f v) :: t else (k', v) :: mapMutate k f t

/-- HashMap::insert (replace the entry at the key, else append). -/
def hashInsert (k : Nat) (v : SelectedSymbol) :
    List (Nat × SelectedSymbol) → List (Nat × SelectedSymbol)
  | [] => [(k, v)]
  | (k', v') :: t => if k' = k then (k', v) :: t else (k', v') :: hashInsert k v t

/-- BlockInfo for a procedure record. -/
structure BlockInfo where
  rva : Nat
  offset : PdbInternalSectionOffset
  len : Nat
deriving DecidableEq

/-- The fields of pdb::ProcedureSymbol read by the analysed code. -/
structure ProcedureSymbol where
  name : List Char
  type_index : Nat
  offset : PdbInternalSectionOffset
deriving DecidableEq

/-- RvaSymbols::add_procedure_symbol (the line collector only feeds the
elided line table). -/
def RvaSymbols.add_procedure_symbol (self : RvaSymbols) (function : ProcedureSymbol)
    (block_info : BlockInfo) (module_index : Nat) : RvaSymbols :=
  match assocFind block_info.rva self.map with
  | some _ =>
    { self with map := mapMutate block_info.rva (fun s => { s with is_multiple := true }) self.map }
  | none =>
    { self with
      rva := block_info.rva,
      symbol := some
        { name := function.name, type_index := function.type_index,
          module_index := some module_index, is_public := false, is_multiple := false,
          offset := block_info.offset, sym_offset := some function.offset,
          len := block_info.len, parameter_size := 0, ebp := [], id := self.last_id },
      last_id := self.last_id + 1 }

/-- RvaSymbols::is_constant_string. -/
def is_constant_string (name : List Char) : Bool :=
  (String.toList "??_C").isPrefixOf name

/-- RvaSymbols::is_constant_number. -/
def is_constant_number (name : List Char) : Bool :=
  if (String.toList "__").isPrefixOf name then
    let n := name.drop 2
    (String.toList "real@").isPrefixOf n || (String.toList "xmm@").isPrefixOf n ||
      (String.toList "ymm@").isPrefixOf n
  else false

/-- RvaSymbols::filter_public. -/
def filter_public (name : List Char) : Bool :=
  is_constant_string name || is_constant_number name

/-- RvaSymbols::add_public_symbol. -/
def RvaSymbols.add_public_symbol (ext : Externals) (self : RvaSymbols)
    (symbol : PublicSymbol) : RvaSymbols :=
  match ext.to_rva symbol.offset with
  | none => self
  | some rva =>
    if symbol.code || symbol.function ||
        (ext.sections_is_code symbol.offset.sect &&
          ext.contributions_is_code symbol.offset.sect symbol.offset.offset) then
      if filter_public symbol.name then self
      else
        match assocFind rva self.map with
        | some _ =>
          { self with map := mapMutate rva (fun s => s.update_public symbol) self.map }
        | none =>
          { self with
            map := self.map ++
              [(rva,
                { name := symbol.name, type_index := 0, module_index := none,
                  is_public := true, is_multiple := false, offset := symbol.offset,
                  sym_offset := none, len := 0, parameter_size := 0, ebp := [],
                  id := self.last_id })],
            last_id := self.last_id + 1 }
    else self

/-- RvaSymbols::add_ebp. -/
def RvaSymbols.add_ebp (self : RvaSymbols) (ti off : Nat) : RvaSymbols :=
  match self.symbol with
  | some sym =>
    { self with symbol := some { sym with ebp := sym.ebp ++ [{ type_index := ti, offset := off }] } }
  | none => self

/-- RvaSymbols::close_procedure. -/
def RvaSymbols.close_procedure (self : RvaSymbols) : RvaSymbols :=
  match self.symbol with
  | some sym => { self with symbol := none, map := hashInsert self.rva sym self.map }
  | none => self

/-- One raw debug record of the per-module stream. -/
inductive DebugRecord where
  | proc (function : ProcedureSymbol) (block_info : BlockInfo) (module_index : Nat)
  | pubsym (symbol : PublicSymbol)
  | ebp (ti off : Nat)
  | close
deriving DecidableEq

/-- Apply one debug record to the accumulating table. -/
def stepRecord (ext : Externals) (s : RvaSymbols) : DebugRecord → RvaSymbols
  | .proc f bi mi => s.add_procedure_symbol f bi mi
  | .pubsym p => s.add_public_symbol ext p
  | .ebp ti off => s.add_ebp ti off
  | .close => s.close_procedure

/-- Stream a record sequence into the table. -/
def runRecords (ext : Externals) (s : RvaSymbols) (evs : List DebugRecord) : RvaSymbols :=
  evs.foldl (stepRecord ext) s

/-- Number of live candidates for one address: the committed map entry plus
the currently open procedure scope when it sits at that address. -/
def candidatesAt (s : RvaSymbols) (a : Nat) : Nat :=
  (if (assocFind a s.map).isSome then 1 else 0) +
    (if s.symbol.isSome ∧ s.rva = a then 1 else 0)

/-- One step of RvaSymbols::split_and_collect (the body of the drain loop). -/
def splitStep (ext : Externals) (acc : List PDBSymbol × Ranges) (e : Nat × SelectedSymbol) :
    Option (List PDBSymbol × Ranges) :=
  let psym := (e.2.mv_to_pdb_symbol ext e.1).1
  let offset := (e.2.mv_to_pdb_symbol ext e.1).2
  let last := acc.1.length
  if psym.len = 0 then some (acc.1 ++ [psym], rangesInsert (e.1, 0) last acc.2)
  else
    match ext.to_internal_rva offset with
    | none => none
    | some start =>
      let rs := (ext.rva_ranges start (start + psym.len)).map (fun r => (r.1, r.2 - r.1))
      some (acc.1 ++ [psym], rs.foldl (fun m rr => rangesInsert rr last m) acc.2)

/-- RvaSymbols::split_and_collect; none models the panic of the
to_internal_rva unwrap. -/
def split_and_collect (ext : Externals) (map : List (Nat × SelectedSymbol)) :
    Option (List PDBSymbol × Ranges) :=
  map.foldlM (splitStep ext) ([], [])

/-- The walk of RvaSymbols::fill_the_gaps after the first range primed the
accumulator. -/
def fill_loop (all_syms : List PDBSymbol) (last_rva last_len : Nat) (last_sym : PDBSymbol)
    (last_id : Nat) (syms : PDBSymbols) : Ranges → PDBSymbols
  | [] => btreeInsert last_rva (last_sym.get_from last_rva last_len) syms
  | ((rva, len), sym_pos) :: rest =>
    let sym := all_syms.getD sym_pos default
    if last_id = sym.id then
      fill_loop all_syms last_rva (rva - last_rva + len) last_sym last_id syms rest
    else
      fill_loop all_syms rva len sym sym.id
        (btreeInsert last_rva (last_sym.get_from last_rva last_len) syms) rest

/-- RvaSymbols::fill_the_gaps; none models the panic of the first-range
unwrap on an empty range map. -/
def fill_the_gaps (all_syms : List PDBSymbol) (ranges : Ranges) : Option PDBSymbols :=
  match ranges with
  | [] => none
  | ((rva, len), sym_pos) :: rest =>
    let s0 := all_syms.getD sym_pos default
    some (fill_loop all_syms rva len s0 s0.id [] rest)

/-- RvaSymbols::mv_to_pdb_symbols. -/
def RvaSymbols.mv_to_pdb_symbols (ext : Externals) (self : RvaSymbols) : Option PDBSymbols :=
  if self.map = [] then some []
  else
    match split_and_collect ext self.map with
    | none => none
    | some (all_syms, ranges) => fill_the_gaps all_syms ranges

/-- The display name given to the trailing sentinel symbol. -/
def dummyName (name : List Char) : List Char :=
  if name = [] then String.toList "<unknown>"
  else String.toList "<unknown in " ++ name ++ [Char.ofNat 62]

/-- append_dummy_symbol: append the end-of-coverage sentinel. -/
def append_dummy_symbol (syms : PDBSymbols) (name : List Char) : PDBSymbols :=
  match syms.getLast? with
  | none => syms
  | some (_, last_sym) =>
    let rva := if last_sym.len = 0 then last_sym.rva + last_sym.len + 1
      else last_sym.rva + last_sym.len
    btreeInsert rva
      { name := dummyName name, is_public := true, is_multiple := false, rva := rva,
        len := 0, parameter_size := 0, id := last_sym.id + 1 } syms

/-- Identity of the finalized symbol owning a range-map entry. -/
def rangeOwnerId (all_syms : List PDBSymbol) (r : (Nat × Nat) × Nat) : Nat :=
  (all_syms.getD r.2 default).id

/-- Modelled from the spec: extend the current run while the owner identity
stays the same, close it when the identity changes, close the final run
unconditionally. -/
def runsOfAux (all_syms : List PDBSymbol) (first : (Nat × Nat) × Nat) (cur : Ranges) :
    Ranges → List Ranges
  | [] => [first :: cur]
  | x :: rest =>
    if rangeOwnerId all_syms x = rangeOwnerId all_syms first then
      runsOfAux all_syms first (cur ++ [x]) rest
    else (first :: cur) :: runsOfAux all_syms x [] rest

/-- Modelled from the spec: decompose the ordered range associations into
maximal runs of consecutive ranges owned by one symbol identity. -/
def runsOf (all_syms : List PDBSymbol) : Ranges → List Ranges
  | [] => []
  | r :: rest => runsOfAux all_syms r [] rest

/-- Modelled from the spec: the table entry of one maximal run, keyed by the
run's first start address and spanning from that start to the run's last
range's end. -/
def runEntry (all_syms : List PDBSymbol) : Ranges → Nat × PDBSymbol
  | [] => (0, default)
  | r :: rs =>
    let lastR := rs.getLastD r
    (r.1.1, (all_syms.getD r.2 default).get_from r.1.1 (lastR.1.1 + lastR.1.2 - r.1.1))

/-- Modelled from the spec: the table the gap-filling walk is specified to
produce, one entry per maximal run. -/
def gapSpecTable (all_syms : List PDBSymbol) (ranges : Ranges) : PDBSymbols :=
  (runsOf all_syms ranges).map (runEntry all_syms)

/-- The commits the gap-filling walk performs, in walk order. -/
def fill_commits (all_syms : List PDBSymbol) (last_rva last_len : Nat) (last_sym : PDBSymbol)
    (last_id : Nat) : Ranges → List (Nat × PDBSymbol)
  | [] => [(last_rva, last_sym.get_from last_rva last_len)]
  | ((rva, len), sym_pos) :: rest =>
    let sym := all_syms.getD sym_pos default
    if last_id = sym.id then
      fill_commits all_syms last_rva (rva - last_rva + len) last_sym last_id rest
    else
      (last_rva, last_sym.get_from last_rva last_len) ::
        fill_commits all_syms rva len sym sym.id rest

/-- Sortedness of a canonical table: keys strictly increasing. -/
def SymsSorted (l : PDBSymbols) : Prop := l.Pairwise (fun a b => a.1 < b.1)

/-- Non-overlap of a canonical table: each entry's address range ends at or
before the start of every later entry. -/
def SymsDisjoint (l : PDBSymbols) : Prop := l.Pairwise (fun a b => a.1 + a.2.len ≤ b.1)

/-- Well-formedness of a range map: keys strictly increasing
lexicographically (the BTreeMap iteration invariant). -/
def RangesKeySorted (l : Ranges) : Prop := l.Pairwise (fun a b => pairLt a.1 b.1 = true)

/-- Pairwise non-overlap of the range map entries. -/
def RangesDisjoint (l : Ranges) : Prop := l.Pairwise (fun a b => a.1.1 + a.1.2 ≤ b.1.1)

/-- Strictly increasing start addresses in the range map. -/
def RangesStartMono (l : Ranges) : Prop := l.Pairwise (fun a b => a.1.1 < b.1.1)

/-- Modelled from the claim of the spec for the frame-variable computation:
minimum offset clamped to at least 4, maximum end rounded up to the next
multiple of 4, subtracted, any non-positive result collapsing to 0. -/
def stack_param_size_claimed (ext : Externals) (s : SelectedSymbol) : Nat :=
  match s.ebp with
  | [] => s.parameter_size
  | i :: rest =>
    let mi := s.module_index.getD 0
    let min_start := max (rest.foldl (fun x j => min x j.offset) i.offset) 4
    let max_end := rest.foldl
      (fun x j => max x (j.offset + ext.get_type_size mi j.type_index))
      (i.offset + ext.get_type_size mi i.type_index)
    ((max_end + 3) / 4) * 4 - min_start

/-- The frame-variable computation as the code performs it, stated over the
plain list extrema: the collapse to 0 is decided by comparing the minimum
start with the maximum end before rounding. -/
def stack_param_size_amended (ext : Externals) (s : SelectedSymbol) : Nat :=
  match s.ebp with
  | [] => s.parameter_size
  | i :: rest =>
    let mi := s.module_index.getD 0
    let min_start := max (rest.foldl (fun x j => min x j.offset) i.offset) 4
    let max_end := rest.foldl
      (fun x j => max x (j.offset + ext.get_type_size mi j.type_index))
      (i.offset + ext.get_type_size mi i.type_index)
    if min_start < max_end then ((max_end + 3) / 4) * 4 - min_start else 0

/-- Two distinct finalized symbols used by concrete counterexamples. -/
def cexA : PDBSymbol :=
  { name := ['A'], is_public := false, is_multiple := false, rva := 0, len := 0,
    parameter_size := 0, id := 0 }

/-- See cexA. -/
def cexB : PDBSymbol :=
  { name := ['B'], is_public := false, is_multiple := false, rva := 0, len := 0,
    parameter_size := 0, id := 1 }

/-- A simple concrete external environment for counterexamples and witnesses. -/
def trivialExt : Externals :=
  { format_function := fun _ _ _ => none, get_type_size := fun _ _ => 4,
    detect_language := fun _ => false, try_demangle := fun _ => none,
    fix_symbol_name := fun n => n, to_internal_rva := fun _ => none,
    to_rva := fun _ => some 5, rva_ranges := fun _ _ => [],
    sections_is_code := fun _ => true, contributions_is_code := fun _ _ => true }

/-- External environment whose type formatter reports size 0. -/
def extZ4 : Externals := { trivialExt with get_type_size := fun _ _ => 0 }

/-- Candidate with a single degenerate frame variable at offset 5. -/
def symZ4 : SelectedSymbol :=
  { name := ['f'], type_index := 1, module_index := some 0, is_public := false,
    is_multiple := false, offset := { sect := 1, offset := 0 }, sym_offset := none,
    len := 10, parameter_size := 77, ebp := [{ type_index := 0, offset := 5 }], id := 0 }

/-- Candidate with frame variables at offsets 4 and 8 (witness for the
frame-variable computation with 4-byte types). -/
def wSym4 : SelectedSymbol :=
  { symZ4 with ebp := [{ type_index := 0, offset := 4 }, { type_index := 0, offset := 8 }] }

/-- Procedure record used by the per-address-candidate counterexample. -/
def cexProc5 : ProcedureSymbol :=
  { name := ['f'], type_index := 7, offset := { sect := 1, offset := 0 } }

/-- Block info of cexProc5: address 5, length 16. -/
def cexBlock5 : BlockInfo := { rva := 5, offset := { sect := 1, offset := 0 }, len := 16 }

/-- Public record at the same address 5 (trivialExt translates every offset
to rva 5). -/
def cexPub5 : PublicSymbol :=
  { code := true, function := false, name := ['g'], offset := { sect := 1, offset := 0 } }

/-- The candidate opened by cexProc5. -/
def cexProcCand5 : SelectedSymbol :=
  { name := ['f'], type_index := 7, module_index := some 0, is_public := false,
    is_multiple := false, offset := { sect := 1, offset := 0 },
    sym_offset := some { sect := 1, offset := 0 }, len := 16, parameter_size := 0,
    ebp := [], id := 0 }

/-- The parallel public candidate created by cexPub5 while cexProc5's scope
is still open. -/
def cexPubCand5 : SelectedSymbol :=
  { name := ['g'], type_index := 0, module_index := none, is_public := true,
    is_multiple := false, offset := { sect := 1, offset := 0 }, sym_offset := none,
    len := 0, parameter_size := 0, ebp := [], id := 1 }

/-- Candidate of nonzero length whose offset the address map cannot
translate under trivialExt. -/
def symLen1 : SelectedSymbol := { symZ4 with ebp := [], len := 1, parameter_size := 0 }

/-- Accumulated table holding only symLen1 (counterexample for the no-abort
claim). -/
def cexRva8 : RvaSymbols := { map := [(5, symLen1)], rva := 0, symbol := none, last_id := 1 }

/-- External environment under which every translation succeeds and every
nonzero range splits into one linear range (witness for the no-abort claim). -/
def wExt8 : Externals :=
  { trivialExt with to_internal_rva := fun _ => some 7, rva_ranges := fun a b => [(a, b)] }

/-- The last table entry of the sentinel-append witness. -/
def wLast7 : PDBSymbol :=
  { name := ['x'], is_public := false, is_multiple := false, rva := 100, len := 20,
    parameter_size := 0, id := 5 }

/-- An existing public candidate named bbb. -/
def wPubB : SelectedSymbol :=
  { name := String.toList "bbb", type_index := 0, module_index := none, is_public := true,
    is_multiple := false, offset := { sect := 1, offset := 0 }, sym_offset := none,
    len := 0, parameter_size := 0, ebp := [], id := 0 }

/-- An existing public candidate named aaa. -/
def wPubA : SelectedSymbol := { wPubB with name := String.toList "aaa" }

/-- A public record named aaa. -/
def wRecA : PublicSymbol :=
  { code := true, function := false, name := String.toList "aaa",
    offset := { sect := 2, offset := 4 } }

/-- A public record named bbb. -/
def wRecB : PublicSymbol := { wRecA with name := String.toList "bbb" }

theorem strLtB_irrefl (a : List Char) : strLtB a a = false := by
  induction a with
  | nil => rfl
  | cons c t ih => simp [strLtB, ih]

theorem strLtB_asymm (a : List Char) : ∀ b, strLtB a b = true → strLtB b a = false := by
  induction a with
  | nil =>
    intro b h
    cases b with
    | nil => simp [strLtB] at h
    | cons d u => rfl
  | cons c t ih =>
    intro b h
    cases b with
    | nil => simp [strLtB] at h
    | cons d u =>
      simp only [strLtB, Bool.or_eq_true, Bool.and_eq_true, decide_eq_true_eq] at h
      simp only [strLtB, Bool.or_eq_false_iff, Bool.and_eq_false_iff, decide_eq_false_iff_not]
      rcases h with h | ⟨hcd, h2⟩
      · constructor
        · omega
        · left
          intro hdc
          rw [hdc] at h
          omega
      · constructor
        · rw [hcd]; omega
        · right
          exact ih u h2

theorem isDigit_facts (c : Char) (h : c.isDigit = true) :
    c ≠ ':' ∧ c ≠ '(' ∧ c ≠ '@' ∧ c ≠ '+' := by
  refine ⟨?_, ?_, ?_, ?_⟩ <;> rintro rfl <;> exact absurd h (by decide)

theorem takeWhile_append_all (p : Char → Bool) (l1 : List Char) (h : ∀ c ∈ l1, p c = true)
    (c : Char) (hc : p c = false) (l2 : List Char) :
    ((l1 ++ c :: l2).takeWhile p) = l1 := by
  induction l1 with
  | nil => simp [List.takeWhile_cons, hc]
  | cons a t ih =>
    have ha := h a (by simp)
    simp [List.takeWhile_cons, ha, ih (fun x hx => h x (by simp [hx]))]

theorem dropWhile_append_all (p : Char → Bool) (l1 : List Char) (h : ∀ c ∈ l1, p c = true)
    (c : Char) (hc : p c = false) (l2 : List Char) :
    ((l1 ++ c :: l2).dropWhile p) = c :: l2 := by
  induction l1 with
  | nil => simp [List.dropWhile_cons, hc]
  | cons a t ih =>
    have ha := h a (by simp)
    simp [List.dropWhile_cons, ha, ih (fun x hx => h x (by simp [hx]))]

theorem rsplitAt2_append (base digits : List Char) (hd : ∀ c ∈ digits, c ≠ '@') :
    rsplitAt2 '@' (base ++ '@' :: digits) = some (base, digits) := by
  unfold rsplitAt2
  have hrev : (base ++ '@' :: digits).reverse = digits.reverse ++ '@' :: base.reverse := by
    simp
  have h1 : ∀ c ∈ digits.reverse, (decide (c ≠ '@')) = true := by
    intro c hc
    simp only [decide_eq_true_eq]
    exact hd c (List.mem_reverse.mp hc)
  have h2 : (decide (('@' : Char) ≠ '@')) = false := by decide
  rw [hrev, dropWhile_append_all _ _ h1 _ h2, takeWhile_append_all _ _ h1 _ h2]
  simp

theorem parseU32_digits (digits : List Char) (h1 : digits ≠ [])
    (h2 : ∀ c ∈ digits, c.isDigit = true) (h3 : strNatVal digits ≤ u32Max) :
    parseU32 digits = some (strNatVal digits) := by
  have hplus : ¬ digits.head? = some '+' := by
    cases digits with
    | nil => simp at h1
    | cons c t =>
      simp only [List.head?, Option.some.injEq]
      intro hc
      have := h2 c (by simp)
      rw [hc] at this
      exact absurd this (by decide)
  unfold parseU32
  rw [if_neg hplus]
  unfold parseU32core
  rw [if_neg h1, if_pos (List.all_eq_true.mpr h2), if_pos h3]

theorem btreeInsert_append (k : Nat) (v : PDBSymbol) :
    ∀ l : PDBSymbols, (∀ p ∈ l, p.1 < k) → btreeInsert k v l = l ++ [(k, v)] := by
  intro l
  induction l with
  | nil => intro _; rfl
  | cons e t ih =>
    intro h
    obtain ⟨k', v'⟩ := e
    have hk : k' < k := h (k', v') (by simp)
    simp only [btreeInsert]
    rw [if_neg (by omega), if_neg (by omega), ih (fun p hp => h p (by simp [hp]))]
    simp

/-- Claim C10: appending the sentinel to an empty canonical table returns
the table unchanged: no entry is inserted when the table has no last
entry. -/
theorem append_dummy_symbol_empty_table (name : List Char) :
    append_dummy_symbol [] name = [] := rfl

/-- Claim C7: on a non-empty canonical table whose last entry sits at its
own rva, append_dummy_symbol appends exactly one new entry, located at the
last entry's end address (or end address + 1 when the last entry has zero
length), with zero length, the public flag set, and an id one greater than
the last entry's id. -/
theorem append_dummy_symbol_appends (init : PDBSymbols) (k : Nat) (last : PDBSymbol)
    (name : List Char) (hs : SymsSorted (init ++ [(k, last)])) (hk : last.rva = k) :
    append_dummy_symbol (init ++ [(k, last)]) name =
      (init ++ [(k, last)]) ++
        [((if last.len = 0 then k + 1 else k + last.len),
          { name := dummyName name, is_public := true, is_multiple := false,
            rva := (if last.len = 0 then k + 1 else k + last.len), len := 0,
            parameter_size := 0, id := last.id + 1 })] := by
  have hbound : ∀ p ∈ init ++ [(k, last)], p.1 < (if last.len = 0 then k + 1 else k + last.len) := by
    intro p hp
    have hcross := (List.pairwise_append.mp hs).2.2
    rcases List.mem_append.mp hp with hin | hlast
    · have : p.1 < k := hcross p hin (k, last) (by simp)
      split <;> omega
    · simp at hlast
      rw [hlast]
      split <;> omega
  unfold append_dummy_symbol
  rw [List.getLast?_concat]
  simp only [hk]
  by_cases hlen : last.len = 0
  · simp only [hlen, if_pos rfl, if_true]
    rw [show k + 0 + 1 = k + 1 by omega]
    rw [btreeInsert_append _ _ _ (by simpa [hlen] using hbound)]
  · simp only [hlen, if_neg hlen, if_false]
    rw [btreeInsert_append _ _ _ (by simpa [hlen] using hbound)]

/-- Witness for claim C7: a last entry at rva 100 with length 20 and id 5
produces a sentinel at address 120 with id 6. -/
theorem append_dummy_symbol_appends_witness :
    append_dummy_symbol [(100, wLast7)] ['m'] =
      [(100, wLast7),
        (120, { name := dummyName ['m'], is_public := true, is_multiple := false,
                rva := 120, len := 0, parameter_size := 0, id := 6 })] := by
  have h := append_dummy_symbol_appends [] 100 wLast7 ['m']
    (by simp [SymsSorted]) (by rfl)
  simpa [wLast7] using h

/-- Claim C6: merging a public record into an existing public candidate
marks is_multiple and keeps the lexicographically smaller of the two
names. -/
theorem update_public_takes_lex_min (s : SelectedSymbol) (p : PublicSymbol)
    (hp : s.is_public = true) :
    (s.update_public p).is_multiple = true ∧
    ((s.update_public p).name = p.name ∨ (s.update_public p).name = s.name) ∧
    strLtB p.name (s.update_public p).name = false ∧
    strLtB s.name (s.update_public p).name = false := by
  unfold SelectedSymbol.update_public
  rw [if_pos hp]
  cases hlt : strLtB p.name s.name with
  | false =>
    rw [if_neg (by simp [hlt])]
    exact ⟨rfl, Or.inr rfl, hlt, strLtB_irrefl s.name⟩
  | true =>
    rw [if_pos (by simp [hlt])]
    exact ⟨rfl, Or.inl rfl, strLtB_irrefl p.name, strLtB_asymm p.name s.name hlt⟩

/-- Witness for claim C6: records named bbb and aaa at one address resolve,
in either arrival order, to the name aaa with is_multiple set. -/
theorem update_public_takes_lex_min_witness :
    ((wPubB.update_public wRecA).is_multiple = true ∧
      (wPubB.update_public wRecA).name = String.toList "aaa") ∧
    ((wPubA.update_public wRecB).is_multiple = true ∧
      (wPubA.update_public wRecB).name = String.toList "aaa") := by
  constructor
  · have h := update_public_takes_lex_min wPubB wRecA (by rfl)
    refine ⟨h.1, ?_⟩
    rcases h.2.1 with hn | hn
    · exact hn
    · exfalso
      have := h.2.2.1
      rw [hn] at this
      simp [wRecA, wPubB] at this
      exact absurd this (by decide)
  · have h := update_public_takes_lex_min wPubA wRecB (by rfl)
    refine ⟨h.1, ?_⟩
    rcases h.2.1 with hn | hn
    · exfalso
      have := h.2.2.2
      rw [hn] at this
      simp [wRecB, wPubA] at this
      exact absurd this (by decide)
    · simp [wPubA] at hn
      exact hn

/-- Claim C3: for a name of the form _(base)@(digits) reaching the
suffix-splitting stage (base free of colon and opening parenthesis, digits a
nonempty u32-parsable digit string), the heuristic resolver yields
Unknown((base, digits)); with a leading at sign it yields digits - 8 floored
at 0. -/
theorem get_unknown_at_suffix (base digits : List Char)
    (hb : ∀ c ∈ base, c ≠ ':' ∧ c ≠ '(')
    (hne : digits ≠ []) (hdig : ∀ c ∈ digits, c.isDigit = true)
    (hle : strNatVal digits ≤ u32Max) :
    FuncName.get_unknown ('_' :: (base ++ '@' :: digits)) =
      .Unknown (base, strNatVal digits) ∧
    FuncName.get_unknown ('@' :: (base ++ '@' :: digits)) =
      .Unknown (base, if strNatVal digits > 8 then strNatVal digits - 8 else 0) := by
  have hany : (base ++ '@' :: digits).any (fun c => c = ':' || c = '(') = false := by
    rw [List.any_eq_false]
    intro c hc
    rcases List.mem_append.mp hc with h | h
    · rcases hb c h with ⟨h1, h2⟩
      simp [h1, h2]
    · rcases List.mem_cons.mp h with rfl | h
      · decide
      · have hf := isDigit_facts c (hdig c h)
        simp [hf.1, hf.2.1]
  have hsplit := rsplitAt2_append base digits (fun c hc => (isDigit_facts c (hdig c hc)).2.2.1)
  have hparse := parseU32_digits digits hne hdig hle
  constructor
  · unfold FuncName.get_unknown
    rw [if_neg (List.cons_ne_nil _ _)]
    simp only [List.take_succ_cons, List.take_zero, List.drop_succ_cons, List.drop_zero]
    rw [if_neg (by simp [hany]), hsplit]
    simp only [hparse]
    rw [if_neg (by decide : ¬ (['_'] : List Char) = ['@'])]
  · unfold FuncName.get_unknown
    rw [if_neg (List.cons_ne_nil _ _)]
    simp only [List.take_succ_cons, List.take_zero, List.drop_succ_cons, List.drop_zero]
    rw [if_neg (by simp [hany]), hsplit]
    simp only [hparse]
    simp

/-- Witness for claim C3: _Foo@12 yields Unknown(("Foo", 12)), @Foo@20
yields Unknown(("Foo", 12)), @Foo@4 yields Unknown(("Foo", 0)). -/
theorem get_unknown_at_suffix_witness :
    FuncName.get_unknown ('_' :: (String.toList "Foo" ++ '@' :: String.toList "12")) =
      .Unknown (String.toList "Foo", 12) ∧
    FuncName.get_unknown ('@' :: (String.toList "Foo" ++ '@' :: String.toList "20")) =
      .Unknown (String.toList "Foo", 12) ∧
    FuncName.get_unknown ('@' :: (String.toList "Foo" ++ '@' :: String.toList "4")) =
      .Unknown (String.toList "Foo", 0) := by
  refine ⟨?_, ?_, ?_⟩
  · have h := (get_unknown_at_suffix (String.toList "Foo") (String.toList "12")
      (by decide) (by decide) (by decide) (by decide)).1
    rw [show strNatVal (String.toList "12") = 12 from by decide] at h
    exact h
  · have h := (get_unknown_at_suffix (String.toList "Foo") (String.toList "20")
      (by decide) (by decide) (by decide) (by decide)).2
    rw [show (if strNatVal (String.toList "20") > 8 then strNatVal (String.toList "20") - 8
      else 0) = 12 from by decide] at h
    exact h
  · have h := (get_unknown_at_suffix (String.toList "Foo") (String.toList "4")
      (by decide) (by decide) (by decide) (by decide)).2
    rw [show (if strNatVal (String.toList "4") > 8 then strNatVal (String.toList "4") - 8
      else 0) = 0 from by decide] at h
    exact h

/-- Claim C9: a name that does not start with underscore or at sign, or that
contains a colon or opening parenthesis after its first character, is
returned unmodified with parameter size 0; a name with a leading underscore
and no parsable trailing at-digits suffix is returned with the underscore
stripped and parameter size 0; the empty name yields Unknown(("", 0)). -/
theorem get_unknown_fallback :
    (∀ (c : Char) (rest : List Char),
      ((c ≠ '_' ∧ c ≠ '@') ∨ rest.any (fun x => x = ':' || x = '(') = true) →
      FuncName.get_unknown (c :: rest) = .Unknown (c :: rest, 0)) ∧
    (∀ sub : List Char, sub.any (fun x => x = ':' || x = '(') = false →
      rsplitAt2 '@' sub = none →
      FuncName.get_unknown ('_' :: sub) = .Unknown (sub, 0)) ∧
    (∀ sub bef aft : List Char, sub.any (fun x => x = ':' || x = '(') = false →
      rsplitAt2 '@' sub = some (bef, aft) → parseU32 aft = none →
      FuncName.get_unknown ('_' :: sub) = .Unknown (sub, 0)) ∧
    FuncName.get_unknown [] = .Unknown ([], 0) := by
  refine ⟨?_, ?_, ?_, rfl⟩
  · intro c rest h
    unfold FuncName.get_unknown
    rw [if_neg (List.cons_ne_nil _ _)]
    simp only [List.take_succ_cons, List.take_zero, List.drop_succ_cons, List.drop_zero]
    rw [if_pos]
    rcases h with ⟨h1, h2⟩ | h
    · left
      constructor <;> simp [List.cons_eq_cons, h1, h2]
    · right
      exact h
  · intro sub hany hsplit
    unfold FuncName.get_unknown
    rw [if_neg (List.cons_ne_nil _ _)]
    simp only [List.take_succ_cons, List.take_zero, List.drop_succ_cons, List.drop_zero]
    rw [if_neg (by simp [hany]), hsplit]
    simp
  · intro sub bef aft hany hsplit hparse
    unfold FuncName.get_unknown
    rw [if_neg (List.cons_ne_nil _ _)]
    simp only [List.take_succ_cons, List.take_zero, List.drop_succ_cons, List.drop_zero]
    rw [if_neg (by simp [hany]), hsplit]
    simp only [hparse]
    simp

/-- Witness for claim C9: _Foo(int) is returned unmodified, _Foo and _Foo@x
have the underscore stripped, the empty name maps to ("", 0). -/
theorem get_unknown_fallback_witness :
    FuncName.get_unknown ('_' :: String.toList "Foo(int)") =
      .Unknown ('_' :: String.toList "Foo(int)", 0) ∧
    FuncName.get_unknown ('_' :: String.toList "Foo") = .Unknown (String.toList "Foo", 0) ∧
    FuncName.get_unknown ('_' :: String.toList "Foo@x") =
      .Unknown (String.toList "Foo@x", 0) ∧
    FuncName.get_unknown [] = .Unknown ([], 0) := by
  refine ⟨?_, ?_, ?_, get_unknown_fallback.2.2.2⟩
  · exact get_unknown_fallback.1 '_' (String.toList "Foo(int)") (Or.inr (by decide))
  · exact get_unknown_fallback.2.1 (String.toList "Foo") (by decide) (by decide)
  · exact get_unknown_fallback.2.2.1 (String.toList "Foo@x") (String.toList "Foo")
      (String.toList "x") (by decide) (by decide) (by decide)

theorem ebp_foldl_split (ext : Externals) (mi : Nat) :
    ∀ (l : List EBPInfo) (a b : Nat),
    l.foldl (fun acc i =>
        (min acc.1 i.offset, max acc.2 (i.offset + ext.get_type_size mi i.type_index))) (a, b) =
      (l.foldl (fun x j => min x j.offset) a,
        l.foldl (fun x j => max x (j.offset + ext.get_type_size mi j.type_index)) b) := by
  intro l
  induction l with
  | nil => intro a b; rfl
  | cons i t ih =>
    intro a b
    simp only [List.foldl_cons]
    exact ih _ _

/-- Claim C4 (amended): the stack parameter size computed from a non-empty
frame-variable list equals minimum offset (clamped to at least 4) subtracted
from the maximum end rounded up to a multiple of 4, except that the collapse
to 0 is decided by comparing the minimum start with the maximum end BEFORE
rounding; an empty frame-variable list keeps the previously known value. -/
theorem get_stack_param_size_eq_amended (ext : Externals) (s : SelectedSymbol)
    (h : ∀ i ∈ s.ebp, i.offset ≤ u32Max) :
    s.get_stack_param_size ext = stack_param_size_amended ext s := by
  unfold SelectedSymbol.get_stack_param_size stack_param_size_amended
  cases hebp : s.ebp with
  | nil => simp
  | cons i t =>
    rw [if_neg (by simp)]
    simp only [List.foldl_cons]
    rw [ebp_foldl_split]
    have hi : i.offset ≤ u32Max := by
      have := h i
      rw [hebp] at this
      exact this (by simp)
    rw [Nat.min_eq_right hi, Nat.zero_max]

/-- Counterexample to claim C4 as stated: a single frame variable at offset
5 whose type has byte size 0 makes the code return 0 (the collapse test
compares min_start with max_end before rounding), while the formula of the
claim rounds max_end to 8 first and then yields the positive value 3. -/
theorem get_stack_param_size_cex :
    SelectedSymbol.get_stack_param_size extZ4 symZ4 = 0 ∧
    stack_param_size_claimed extZ4 symZ4 = 3 := by
  constructor <;> decide

/-- Witness for claim C4 (amended): frame variables at offsets 4 and 8 with
4-byte types yield 8; no frame variables keeps the previous value 77. -/
theorem get_stack_param_size_eq_amended_witness :
    SelectedSymbol.get_stack_param_size trivialExt wSym4 =
      stack_param_size_amended trivialExt wSym4 ∧
    stack_param_size_amended trivialExt wSym4 = 8 ∧
    SelectedSymbol.get_stack_param_size trivialExt { wSym4 with ebp := [] } = 77 :=
  ⟨get_stack_param_size_eq_amended trivialExt wSym4 (by decide), by decide, by decide⟩

theorem btreeInsert_mem (k : Nat) (v : PDBSymbol) :
    ∀ (l : PDBSymbols) (p : Nat × PDBSymbol), p ∈ btreeInsert k v l → p ∈ l ∨ p = (k, v) := by
  intro l
  induction l with
  | nil =>
    intro p hp
    simp [btreeInsert] at hp
    exact Or.inr (by simp [hp])
  | cons e t ih =>
    intro p hp
    obtain ⟨k', v'⟩ := e
    simp only [btreeInsert] at hp
    by_cases h1 : k < k'
    · rw [if_pos h1] at hp
      rcases List.mem_cons.mp hp with rfl | hp
      · exact Or.inr rfl
      · exact Or.inl hp
    · rw [if_neg h1] at hp
      by_cases h2 : k = k'
      · rw [if_pos h2] at hp
        rcases List.mem_cons.mp hp with rfl | hp
        · exact Or.inr rfl
        · exact Or.inl (List.mem_cons_of_mem _ hp)
      · rw [if_neg h2] at hp
        rcases List.mem_cons.mp hp with rfl | hp
        · exact Or.inl (by simp)
        · rcases ih p hp with h | h
          · exact Or.inl (List.mem_cons_of_mem _ h)
          · exact Or.inr h

theorem btreeInsert_sorted_disjoint (k : Nat) (v : PDBSymbol) (hv : v.rva = k) :
    ∀ l : PDBSymbols, SymsSorted l → SymsDisjoint l →
    (∀ p ∈ l, p.1 + p.2.len ≤ k) → (∀ p ∈ l, p.2.rva = p.1) →
    SymsSorted (btreeInsert k v l) ∧ SymsDisjoint (btreeInsert k v l) ∧
      (∀ p ∈ btreeInsert k v l, p.1 + p.2.len ≤ k + v.len) ∧
      (∀ p ∈ btreeInsert k v l, p.2.rva = p.1) := by
  intro l
  induction l with
  | nil =>
    intro _ _ _ _
    refine ⟨?_, ?_, ?_, ?_⟩ <;> simp [btreeInsert, SymsSorted, SymsDisjoint, hv]
  | cons e t ih =>
    intro hs hd hb hr
    obtain ⟨k', v'⟩ := e
    have hk'lek : k' + v'.len ≤ k := hb (k', v') (by simp)
    have hnotlt : ¬ k < k' := by omega
    rw [SymsSorted, List.pairwise_cons] at hs
    rw [SymsDisjoint, List.pairwise_cons] at hd
    obtain ⟨hs1, hs2⟩ := hs
    obtain ⟨hd1, hd2⟩ := hd
    simp only [btreeInsert]
    rw [if_neg hnotlt]
    by_cases heq : k = k'
    · rw [if_pos heq]
      have ht : t = [] := by
        by_contra hne
        obtain ⟨q, hq⟩ := List.exists_mem_of_ne_nil t hne
        have h1 := hs1 q hq
        have h2 := hb q (by simp [hq])
        omega
      subst ht
      refine ⟨?_, ?_, ?_, ?_⟩ <;> simp [SymsSorted, SymsDisjoint, hv]
    · rw [if_neg heq]
      have hk'ltk : k' < k := by omega
      obtain ⟨ihs, ihd, ihb, ihr⟩ := ih hs2 hd2 (fun p hp => hb p (by simp [hp]))
        (fun p hp => hr p (by simp [hp]))
      refine ⟨?_, ?_, ?_, ?_⟩
      · rw [SymsSorted, List.pairwise_cons]
        refine ⟨?_, ihs⟩
        intro p hp
        rcases btreeInsert_mem k v t p hp with h | h
        · exact hs1 p h
        · rw [h]
          exact hk'ltk
      · rw [SymsDisjoint, List.pairwise_cons]
        refine ⟨?_, ihd⟩
        intro p hp
        rcases btreeInsert_mem k v t p hp with h | h
        · exact hd1 p h
        · rw [h]
          exact hk'lek
      · intro p hp
        rcases List.mem_cons.mp hp with rfl | hp
        · simp only []
          omega
        · exact ihb p hp
      · intro p hp
        rcases List.mem_cons.mp hp with rfl | hp
        · exact hr (k', v') (by simp)
        · exact ihr p hp

theorem fill_loop_sorted_disjoint (all_syms : List PDBSymbol) :
    ∀ (R : Ranges) (lr ll : Nat) (ls : PDBSymbol) (lid : Nat) (syms : PDBSymbols),
    R.Pairwise (fun a b => a.1.1 + a.1.2 ≤ b.1.1) →
    (∀ x ∈ R, lr + ll ≤ x.1.1) →
    SymsSorted syms → SymsDisjoint syms →
    (∀ p ∈ syms, p.1 + p.2.len ≤ lr) → (∀ p ∈ syms, p.2.rva = p.1) →
    SymsSorted (fill_loop all_syms lr ll ls lid syms R) ∧
      SymsDisjoint (fill_loop all_syms lr ll ls lid syms R) ∧
      (∀ p ∈ fill_loop all_syms lr ll ls lid syms R, p.2.rva = p.1) := by
  intro R
  induction R with
  | nil =>
    intro lr ll ls lid syms _ _ hs hd hb hr
    simp only [fill_loop]
    obtain ⟨a, b, _, d⟩ := btreeInsert_sorted_disjoint lr (ls.get_from lr ll) rfl syms hs hd hb hr
    exact ⟨a, b, d⟩
  | cons x rest ih =>
    intro lr ll ls lid syms hR hx hs hd hb hr
    obtain ⟨⟨rva, len⟩, pos⟩ := x
    rw [List.pairwise_cons] at hR
    obtain ⟨hR1, hR2⟩ := hR
    have hlrx : lr + ll ≤ rva := hx ((rva, len), pos) (by simp)
    simp only [fill_loop]
    by_cases hid : lid = (all_syms.getD pos default).id
    · rw [if_pos hid]
      apply ih lr (rva - lr + len) ls lid syms hR2 _ hs hd _ hr
      · intro y hy
        have h2 : rva + len ≤ y.1.1 := by simpa using hR1 y hy
        omega
      · intro p hp
        exact hb p hp
    · rw [if_neg hid]
      obtain ⟨a, b, c, d⟩ := btreeInsert_sorted_disjoint lr (ls.get_from lr ll) rfl syms hs hd hb hr
      apply ih rva len _ _ _ hR2 _ a b _ d
      · intro y hy
        simpa using hR1 y hy
      · intro p hp
        have hc := c p hp
        have hlen : (PDBSymbol.get_from ls lr ll).len = ll := rfl
        rw [hlen] at hc
        omega

/-- Claim C1 (amended): when the splitter's range map is well formed
(strictly increasing keys) and its ranges are pairwise non-overlapping, the
canonical table produced by gap-filling has entries in strictly increasing
address order, stores each entry at its own rva, and the address ranges of
its entries are pairwise non-overlapping. -/
theorem fill_the_gaps_sorted_disjoint (all_syms : List PDBSymbol) (ranges : Ranges)
    (hkey : RangesKeySorted ranges) (hdisj : RangesDisjoint ranges) (syms : PDBSymbols)
    (h : fill_the_gaps all_syms ranges = some syms) :
    SymsSorted syms ∧ SymsDisjoint syms ∧ ∀ p ∈ syms, p.2.rva = p.1 := by
  cases ranges with
  | nil => simp [fill_the_gaps] at h
  | cons x rest =>
    obtain ⟨⟨rva, len⟩, pos⟩ := x
    simp only [fill_the_gaps, Option.some.injEq] at h
    subst h
    rw [RangesDisjoint, List.pairwise_cons] at hdisj
    exact fill_loop_sorted_disjoint all_syms rest rva len _ _ [] hdisj.2
      (fun y hy => hdisj.1 y hy) (by simp [SymsSorted]) (by simp [SymsDisjoint])
      (by simp) (by simp)

/-- Witness for claim C1 (amended): two disjoint ranges of one symbol and
the resulting one-entry table. -/
theorem fill_the_gaps_sorted_disjoint_witness :
    SymsSorted [(0, cexA.get_from 0 12)] ∧ SymsDisjoint [(0, cexA.get_from 0 12)] ∧
      ∀ p ∈ [(0, cexA.get_from 0 12)], p.2.rva = p.1 :=
  fill_the_gaps_sorted_disjoint [cexA] [((0, 4), 0), ((8, 4), 0)]
    (by constructor <;> simp [pairLt]) (by constructor <;> simp)
    [(0, cexA.get_from 0 12)] (by rfl)

/-- Counterexample to claim C1 as stated: a well-formed (key-sorted) range
map whose ranges overlap — which the splitter does not rule out — produces a
canonical table whose first entry overlaps the second. -/
theorem fill_the_gaps_overlap_cex :
    fill_the_gaps [cexA, cexB] [((0, 10), 0), ((5, 3), 1)] =
      some [(0, cexA.get_from 0 10), (5, cexB.get_from 5 3)] ∧
    RangesKeySorted [((0, 10), 0), ((5, 3), 1)] ∧
    ¬ SymsDisjoint [(0, cexA.get_from 0 10), (5, cexB.get_from 5 3)] := by
  refine ⟨by rfl, by constructor <;> simp [pairLt], ?_⟩
  intro hcontra
  rw [SymsDisjoint, List.pairwise_cons] at hcontra
  have h := hcontra.1 (5, cexB.get_from 5 3) (by simp)
  simp [cexA, PDBSymbol.get_from] at h

theorem fill_loop_eq_commits (all_syms : List PDBSymbol) :
    ∀ (R : Ranges) (lr ll : Nat) (ls : PDBSymbol) (lid : Nat) (syms : PDBSymbols),
    (∀ p ∈ syms, p.1 < lr) → (∀ x ∈ R, lr < x.1.1) →
    R.Pairwise (fun a b => a.1.1 < b.1.1) →
    fill_loop all_syms lr ll ls lid syms R = syms ++ fill_commits all_syms lr ll ls lid R := by
  intro R
  induction R with
  | nil =>
    intro lr ll ls lid syms hk _ _
    simp only [fill_loop, fill_commits]
    exact btreeInsert_append lr (ls.get_from lr ll) syms hk
  | cons x rest ih =>
    intro lr ll ls lid syms hk hx hmono
    obtain ⟨⟨rva, len⟩, pos⟩ := x
    rw [List.pairwise_cons] at hmono
    have hlr : lr < rva := by simpa using hx ((rva, len), pos) (by simp)
    simp only [fill_loop, fill_commits]
    by_cases hid : lid = (all_syms.getD pos default).id
    · rw [if_pos hid, if_pos hid]
      apply ih lr (rva - lr + len) ls lid syms hk _ hmono.2
      intro y hy
      have h2 : rva < y.1.1 := by simpa using hmono.1 y hy
      omega
    · rw [if_neg hid, if_neg hid]
      rw [btreeInsert_append lr (ls.get_from lr ll) syms hk]
      have h2 : ∀ p ∈ syms ++ [(lr, ls.get_from lr ll)], p.1 < rva := by
        intro p hp
        rcases List.mem_append.mp hp with h | h
        · exact lt_trans (hk p h) hlr
        · simp only [List.mem_singleton] at h
          rw [h]
          exact hlr
      have h3 : ∀ y ∈ rest, rva < y.1.1 := fun y hy => by simpa using hmono.1 y hy
      rw [ih rva len (all_syms.getD pos default) (all_syms.getD pos default).id
        (syms ++ [(lr, ls.get_from lr ll)]) h2 h3 hmono.2]
      simp

theorem fill_commits_eq_runs (all_syms : List PDBSymbol) :
    ∀ (R : Ranges) (first : (Nat × Nat) × Nat) (cur : Ranges) (ll : Nat),
    (∀ x ∈ R, first.1.1 < x.1.1) → R.Pairwise (fun a b => a.1.1 < b.1.1) →
    first.1.1 + ll = (cur.getLastD first).1.1 + (cur.getLastD first).1.2 →
    fill_commits all_syms first.1.1 ll (all_syms.getD first.2 default)
        (rangeOwnerId all_syms first) R =
      (runsOfAux all_syms first cur R).map (runEntry all_syms) := by
  intro R
  induction R with
  | nil =>
    intro first cur ll _ _ hll
    simp only [fill_commits, runsOfAux, List.map_cons, List.map_nil, runEntry]
    have h : (cur.getLastD first).1.1 + (cur.getLastD first).1.2 - first.1.1 = ll := by omega
    rw [h]
  | cons x rest ih =>
    intro first cur ll hx hmono hll
    rw [List.pairwise_cons] at hmono
    have hfx : first.1.1 < x.1.1 := hx x (by simp)
    obtain ⟨⟨rva, len⟩, pos⟩ := x
    simp only [fill_commits, runsOfAux, rangeOwnerId]
    by_cases hid : (all_syms.getD pos default).id = (all_syms.getD first.2 default).id
    · rw [if_pos hid.symm, if_pos hid]
      have hres := ih first (cur ++ [((rva, len), pos)]) (rva - first.1.1 + len)
        (fun y hy => hx y (by simp [hy])) hmono.2 ?hll2
      case hll2 =>
        rw [List.getLastD_concat]
        simp only []
        have : first.1.1 < rva := by simpa using hfx
        omega
      simpa [rangeOwnerId] using hres
    · rw [if_neg (fun h => hid h.symm), if_neg hid]
      simp only [List.map_cons]
      congr 1
      · simp only [runEntry]
        have h : (cur.getLastD first).1.1 + (cur.getLastD first).1.2 - first.1.1 = ll := by
          omega
        rw [h]
      · have hres := ih ((rva, len), pos) [] len
          (fun y hy => by simpa using hmono.1 y hy) hmono.2 (by simp)
        simpa [rangeOwnerId] using hres

/-- Claim C2 (amended): on an address-ordered range map whose start
addresses are strictly increasing (so that no two maximal runs share a
start key), the gap-filling walk produces exactly one entry per maximal run
of consecutive ranges with one owner identity, keyed by the run's first
start address, spanning from that start to the run's last range's end
(holes included), committed when the identity changes, with the final
accumulated range committed unconditionally. -/
theorem fill_the_gaps_eq_runs (all_syms : List PDBSymbol) (ranges : Ranges)
    (hne : ranges ≠ []) (hmono : RangesStartMono ranges) :
    fill_the_gaps all_syms ranges = some (gapSpecTable all_syms ranges) := by
  cases ranges with
  | nil => exact absurd rfl hne
  | cons x rest =>
    obtain ⟨⟨rva, len⟩, pos⟩ := x
    rw [RangesStartMono, List.pairwise_cons] at hmono
    simp only [fill_the_gaps, gapSpecTable, runsOf, Option.some.injEq]
    rw [fill_loop_eq_commits all_syms rest rva len _ _ [] (by simp)
      (fun y hy => by simpa using hmono.1 y hy) hmono.2]
    rw [List.nil_append]
    exact fill_commits_eq_runs all_syms rest ((rva, len), pos) [] len
      (fun y hy => by simpa using hmono.1 y hy) hmono.2 (by simp)

/-- Witness for claim C2 (amended): ranges (0,4) and (8,4) of one symbol
followed by (20,4) of another merge into two entries, the first spanning 0
to 12 across the hole. -/
theorem fill_the_gaps_eq_runs_witness :
    fill_the_gaps [cexA, cexB] [((0, 4), 0), ((8, 4), 0), ((20, 4), 1)] =
      some (gapSpecTable [cexA, cexB] [((0, 4), 0), ((8, 4), 0), ((20, 4), 1)]) ∧
    gapSpecTable [cexA, cexB] [((0, 4), 0), ((8, 4), 0), ((20, 4), 1)] =
      [(0, cexA.get_from 0 12), (20, cexB.get_from 20 4)] :=
  ⟨fill_the_gaps_eq_runs [cexA, cexB] [((0, 4), 0), ((8, 4), 0), ((20, 4), 1)]
      (by simp) (by unfold RangesStartMono; decide), by rfl⟩

/-- Counterexample to claim C2 as stated: an address-ordered range map in
which two maximal runs share the first start address 100 (a zero-length
range then a nonzero one, with distinct owners); the walk commits both runs
at key 100, the second commit overwrites the first, and the table holds one
entry although there are two maximal runs. -/
theorem fill_the_gaps_overwrite_cex :
    fill_the_gaps [cexA, cexB] [((100, 0), 0), ((100, 5), 1)] =
      some [(100, cexB.get_from 100 5)] ∧
    runsOf [cexA, cexB] [((100, 0), 0), ((100, 5), 1)] =
      [[((100, 0), 0)], [((100, 5), 1)]] ∧
    RangesKeySorted [((100, 0), 0), ((100, 5), 1)] := by
  refine ⟨by rfl, by rfl, by unfold RangesKeySorted; decide⟩

theorem mv_to_pdb_symbol_len (ext : Externals) (s : SelectedSymbol) (rva : Nat) :
    (s.mv_to_pdb_symbol ext rva).1.len = s.len := rfl

theorem mv_to_pdb_symbol_offset (ext : Externals) (s : SelectedSymbol) (rva : Nat) :
    (s.mv_to_pdb_symbol ext rva).2 = s.offset := rfl

theorem rangesInsert_ne_nil (k : Nat × Nat) (v : Nat) :
    ∀ l : Ranges, rangesInsert k v l ≠ [] := by
  intro l
  cases l with
  | nil => simp [rangesInsert]
  | cons e t =>
    obtain ⟨k', v'⟩ := e
    simp only [rangesInsert]
    split
    · simp
    · split <;> simp

theorem foldl_rangesInsert_ne_nil (pos : Nat) :
    ∀ (rs : List (Nat × Nat)) (acc : Ranges), (rs ≠ [] ∨ acc ≠ []) →
    rs.foldl (fun m rr => rangesInsert rr pos m) acc ≠ [] := by
  intro rs
  induction rs with
  | nil =>
    intro acc h
    rcases h with h | h
    · exact absurd rfl h
    · simpa using h
  | cons r t ih =>
    intro acc _
    simp only [List.foldl_cons]
    exact ih _ (Or.inr (rangesInsert_ne_nil r pos acc))

theorem splitStep_some (ext : Externals) (acc : List PDBSymbol × Ranges) (e : Nat × SelectedSymbol)
    (h1 : e.2.len ≠ 0 → (ext.to_internal_rva e.2.offset).isSome = true)
    (h2 : e.2.len ≠ 0 → ∀ st, ext.to_internal_rva e.2.offset = some st →
      ext.rva_ranges st (st + e.2.len) ≠ []) :
    ∃ acc', splitStep ext acc e = some acc' ∧ acc'.2 ≠ [] := by
  simp only [splitStep]
  by_cases hlen : (e.2.mv_to_pdb_symbol ext e.1).1.len = 0
  · rw [if_pos hlen]
    exact ⟨_, rfl, rangesInsert_ne_nil _ _ _⟩
  · rw [if_neg hlen]
    rw [mv_to_pdb_symbol_len] at hlen
    obtain ⟨st, hst⟩ := Option.isSome_iff_exists.mp (h1 hlen)
    rw [mv_to_pdb_symbol_offset, hst]
    refine ⟨_, rfl, ?_⟩
    apply foldl_rangesInsert_ne_nil
    left
    simp only [ne_eq, List.map_eq_nil_iff]
    rw [mv_to_pdb_symbol_len]
    exact h2 hlen st hst

theorem foldlM_splitStep_some (ext : Externals) :
    ∀ (map : List (Nat × SelectedSymbol)) (acc : List PDBSymbol × Ranges),
    (∀ p ∈ map, p.2.len ≠ 0 → (ext.to_internal_rva p.2.offset).isSome = true) →
    (∀ p ∈ map, p.2.len ≠ 0 → ∀ st, ext.to_internal_rva p.2.offset = some st →
      ext.rva_ranges st (st + p.2.len) ≠ []) →
    (map ≠ [] ∨ acc.2 ≠ []) →
    ∃ res, List.foldlM (splitStep ext) acc map = some res ∧ res.2 ≠ [] := by
  intro map
  induction map with
  | nil =>
    intro acc _ _ h
    rcases h with h | h
    · exact absurd rfl h
    · exact ⟨acc, rfl, h⟩
  | cons e t ih =>
    intro acc h1 h2 _
    obtain ⟨acc', hstep, hne⟩ := splitStep_some ext acc e (h1 e (by simp)) (h2 e (by simp))
    obtain ⟨res, hfold, hres⟩ := ih acc' (fun p hp => h1 p (by simp [hp]))
      (fun p hp => h2 p (by simp [hp])) (Or.inr hne)
    refine ⟨res, ?_, hres⟩
    rw [List.foldlM_cons, hstep]
    exact hfold

/-- Claim C8 (amended): the reconciliation pipeline can abort in exactly two
places, both in finalization: the unwrap of the address translation of a
symbol's offset, and the unwrap of the first range when the splitter
produced none.  Whenever every nonzero-length symbol's offset translates
and yields at least one linear range, splitting and gap-filling complete
without aborting; all other failures are local classification decisions. -/
theorem mv_to_pdb_symbols_no_abort (ext : Externals) (self : RvaSymbols)
    (h1 : ∀ p ∈ self.map, p.2.len ≠ 0 → (ext.to_internal_rva p.2.offset).isSome = true)
    (h2 : ∀ p ∈ self.map, p.2.len ≠ 0 → ∀ st, ext.to_internal_rva p.2.offset = some st →
      ext.rva_ranges st (st + p.2.len) ≠ []) :
    ∃ t, RvaSymbols.mv_to_pdb_symbols ext self = some t := by
  unfold RvaSymbols.mv_to_pdb_symbols
  by_cases hmap : self.map = []
  · rw [if_pos hmap]
    exact ⟨[], rfl⟩
  · rw [if_neg hmap]
    obtain ⟨res, hsc, hne⟩ := foldlM_splitStep_some ext self.map ([], []) h1 h2 (Or.inl hmap)
    unfold split_and_collect
    rw [hsc]
    obtain ⟨all_syms, ranges⟩ := res
    simp only [ne_eq] at hne
    cases ranges with
    | nil => exact absurd rfl hne
    | cons r rest =>
      obtain ⟨⟨rva, len⟩, pos⟩ := r
      exact ⟨_, rfl⟩

/-- Counterexample to claim C8 as stated: with a nonzero-length symbol whose
offset the address map cannot translate, split_and_collect hits the
to_internal_rva unwrap and the pipeline aborts (modelled as none). -/
theorem mv_to_pdb_symbols_abort_cex :
    RvaSymbols.mv_to_pdb_symbols trivialExt cexRva8 = none := by rfl

/-- Witness for claim C8 (amended): under an environment where translation
succeeds and ranges are non-empty the pipeline completes. -/
theorem mv_to_pdb_symbols_no_abort_witness :
    ∃ t, RvaSymbols.mv_to_pdb_symbols wExt8 cexRva8 = some t :=
  mv_to_pdb_symbols_no_abort wExt8 cexRva8 (by decide)
    (by
      intro p hp hlen st hst
      simp [wExt8])

theorem assocFind_none_not_mem (k : Nat) :
    ∀ m, assocFind k m = none → ∀ p ∈ m, p.1 ≠ k := by
  intro m
  induction m with
  | nil =>
    intro _ p hp
    simp at hp
  | cons e t ih =>
    intro h p hp
    obtain ⟨k', v'⟩ := e
    simp only [assocFind] at h
    by_cases hk : k' = k
    · rw [if_pos hk] at h
      exact absurd h (by simp)
    · rw [if_neg hk] at h
      rcases List.mem_cons.mp hp with rfl | hp
      · simpa using hk
      · exact ih h p hp

theorem mapMutate_fst (k : Nat) (f : SelectedSymbol → SelectedSymbol) :
    ∀ m, (mapMutate k f m).map Prod.fst = m.map Prod.fst := by
  intro m
  induction m with
  | nil => rfl
  | cons e t ih =>
    obtain ⟨k', v'⟩ := e
    simp only [mapMutate]
    split
    · simp
    · simp [ih]

theorem mapMutate_length (k : Nat) (f : SelectedSymbol → SelectedSymbol) :
    ∀ m, (mapMutate k f m).length = m.length := by
  intro m
  induction m with
  | nil => rfl
  | cons e t ih =>
    obtain ⟨k', v'⟩ := e
    simp only [mapMutate]
    split
    · simp
    · simp [ih]

theorem assocFind_mapMutate (k : Nat) (f : SelectedSymbol → SelectedSymbol) :
    ∀ m, assocFind k (mapMutate k f m) = Option.map f (assocFind k m) := by
  intro m
  induction m with
  | nil => rfl
  | cons e t ih =>
    obtain ⟨k', v'⟩ := e
    simp only [mapMutate, assocFind]
    by_cases hk : k' = k
    · rw [if_pos hk]
      simp [assocFind, if_pos hk]
    · rw [if_neg hk]
      simp only [assocFind, if_neg hk]
      exact ih

theorem hashInsert_fst_mem (k : Nat) (v : SelectedSymbol) :
    ∀ m a, a ∈ (hashInsert k v m).map Prod.fst → a ∈ m.map Prod.fst ∨ a = k := by
  intro m
  induction m with
  | nil =>
    intro a ha
    simp [hashInsert] at ha
    exact Or.inr ha
  | cons e t ih =>
    intro a ha
    obtain ⟨k', v'⟩ := e
    simp only [hashInsert] at ha
    by_cases hk : k' = k
    · rw [if_pos hk] at ha
      simp only [List.map_cons, List.mem_cons] at ha
      rcases ha with rfl | ha
      · exact Or.inl (by simp)
      · exact Or.inl (by simp [ha])
    · rw [if_neg hk] at ha
      simp only [List.map_cons, List.mem_cons] at ha
      rcases ha with rfl | ha
      · exact Or.inl (by simp)
      · rcases ih a ha with h | h
        · exact Or.inl (by simp [h])
        · exact Or.inr h

theorem hashInsert_nodup (k : Nat) (v : SelectedSymbol) :
    ∀ m, (m.map Prod.fst).Nodup → ((hashInsert k v m).map Prod.fst).Nodup := by
  intro m
  induction m with
  | nil =>
    intro _
    simp [hashInsert]
  | cons e t ih =>
    intro h
    obtain ⟨k', v'⟩ := e
    simp only [hashInsert]
    by_cases hk : k' = k
    · rw [if_pos hk]
      simpa using h
    · rw [if_neg hk]
      simp only [List.map_cons, List.nodup_cons] at h ⊢
      refine ⟨?_, ih h.2⟩
      intro hmem
      rcases hashInsert_fst_mem k v t k' hmem with hin | heq
      · exact h.1 hin
      · exact hk heq

theorem stepRecord_nodup (ext : Externals) (r : DebugRecord) (s : RvaSymbols)
    (h : (s.map.map Prod.fst).Nodup) :
    (((stepRecord ext s r).map).map Prod.fst).Nodup := by
  cases r with
  | proc f bi mi =>
    simp only [stepRecord, RvaSymbols.add_procedure_symbol]
    cases hfind : assocFind bi.rva s.map with
    | some old => simpa [mapMutate_fst] using h
    | none => simpa using h
  | pubsym p =>
    simp only [stepRecord, RvaSymbols.add_public_symbol]
    cases hrva : ext.to_rva p.offset with
    | none => exact h
    | some rva =>
      dsimp only
      by_cases hcode : (p.code || p.function || (ext.sections_is_code p.offset.sect &&
          ext.contributions_is_code p.offset.sect p.offset.offset)) = true
      · rw [if_pos hcode]
        by_cases hfil : filter_public p.name = true
        · rw [if_pos hfil]
          exact h
        · rw [if_neg hfil]
          cases hfind : assocFind rva s.map with
          | some old => simpa [mapMutate_fst] using h
          | none =>
            simp only [List.map_append, List.map_cons, List.map_nil]
            rw [List.nodup_append]
            refine ⟨h, by simp, ?_⟩
            intro a ha hb
            simp only [List.mem_singleton] at hb
            obtain ⟨q, hq, hq2⟩ := List.mem_map.mp ha
            exact assocFind_none_not_mem rva s.map hfind q hq (by rw [hq2, hb])
      · rw [if_neg hcode]
        exact h
  | ebp ti off =>
    simp only [stepRecord, RvaSymbols.add_ebp]
    cases s.symbol with
    | some sym => exact h
    | none => exact h
  | close =>
    simp only [stepRecord, RvaSymbols.close_procedure]
    cases s.symbol with
    | some sym => exact hashInsert_nodup s.rva sym s.map h
    | none => exact h

theorem update_public_id (s : SelectedSymbol) (p : PublicSymbol) :
    (s.update_public p).id = s.id := by
  unfold SelectedSymbol.update_public
  by_cases hp : s.is_public = true
  · rw [if_pos hp]
    simp only []
    split <;> rfl
  · rw [if_neg hp]
    simp only []
    (repeat' split) <;> rfl

/-- Claim C5 (amended): within the committed table, at most one candidate
exists per address (keys stay duplicate-free under every record sequence),
and a procedure or public record arriving at an address already committed
mutates the existing candidate in place — same identity, same table size,
is_multiple set for duplicate procedure records — rather than creating or
replacing one.  (A record arriving at the address of a still-open procedure
scope, however, creates a parallel candidate which the scope's close then
replaces; see the counterexample.) -/
theorem candidate_per_address_invariant :
    (∀ (ext : Externals) (evs : List DebugRecord),
      (((runRecords ext initRva evs).map).map Prod.fst).Nodup) ∧
    (∀ (s : RvaSymbols) (f : ProcedureSymbol) (bi : BlockInfo) (mi : Nat)
      (old : SelectedSymbol), assocFind bi.rva s.map = some old →
      assocFind bi.rva (s.add_procedure_symbol f bi mi).map =
        some { old with is_multiple := true } ∧
      (s.add_procedure_symbol f bi mi).map.length = s.map.length ∧
      (s.add_procedure_symbol f bi mi).symbol = s.symbol ∧
      (s.add_procedure_symbol f bi mi).last_id = s.last_id) ∧
    (∀ (ext : Externals) (s : RvaSymbols) (p : PublicSymbol) (rva : Nat)
      (old : SelectedSymbol), ext.to_rva p.offset = some rva →
      (p.code || p.function || (ext.sections_is_code p.offset.sect &&
        ext.contributions_is_code p.offset.sect p.offset.offset)) = true →
      filter_public p.name = false →
      assocFind rva s.map = some old →
      assocFind rva (s.add_public_symbol ext p).map = some (old.update_public p) ∧
      (s.add_public_symbol ext p).map.length = s.map.length ∧
      (old.update_public p).id = old.id) := by
  refine ⟨?_, ?_, ?_⟩
  · intro ext evs
    have hstart : ((initRva.map).map Prod.fst).Nodup := by simp [initRva]
    have hrun : ∀ (l : List DebugRecord) (st : RvaSymbols),
        ((st.map).map Prod.fst).Nodup → (((runRecords ext st l).map).map Prod.fst).Nodup := by
      intro l
      induction l with
      | nil => intro st h; exact h
      | cons r t ih =>
        intro st h
        exact ih _ (stepRecord_nodup ext r st h)
    exact hrun evs initRva hstart
  · intro s f bi mi old hfind
    unfold RvaSymbols.add_procedure_symbol
    rw [hfind]
    refine ⟨?_, ?_, rfl, rfl⟩
    · simp only []
      rw [assocFind_mapMutate, hfind]
      rfl
    · simp only []
      exact mapMutate_length _ _ _
  · intro ext s p rva old hrva hcode hfil hfind
    unfold RvaSymbols.add_public_symbol
    rw [hrva]
    dsimp only
    rw [if_pos hcode, if_neg (by simp [hfil]), hfind]
    refine ⟨?_, ?_, update_public_id old p⟩
    · simp only []
      rw [assocFind_mapMutate, hfind]
      rfl
    · simp only []
      exact mapMutate_length _ _ _

/-- Counterexample to claim C5 as stated: while the procedure scope opened
at address 5 is still open, a public record at address 5 creates a second
candidate for that address (two candidates at once); closing the scope then
replaces the committed public candidate wholesale — the entry's identity
changes from 1 back to 0 and is_multiple remains false — instead of
mutating it. -/
theorem candidate_per_address_cex :
    candidatesAt (runRecords trivialExt initRva
      [DebugRecord.proc cexProc5 cexBlock5 0, DebugRecord.pubsym cexPub5]) 5 = 2 ∧
    assocFind 5 (runRecords trivialExt initRva
      [DebugRecord.proc cexProc5 cexBlock5 0, DebugRecord.pubsym cexPub5]).map =
      some cexPubCand5 ∧
    assocFind 5 (runRecords trivialExt initRva
      [DebugRecord.proc cexProc5 cexBlock5 0, DebugRecord.pubsym cexPub5,
        DebugRecord.close]).map = some cexProcCand5 ∧
    cexProcCand5.is_multiple = false ∧ cexPubCand5.id = 1 ∧ cexProcCand5.id = 0 := by
  refine ⟨by decide, by decide, by decide, rfl, rfl, rfl⟩

/-- Witness for claim C5 (amended): duplicate-free keys after a concrete
record sequence, and in-place mutation for concrete procedure and public
records hitting an occupied address. -/
theorem candidate_per_address_invariant_witness :
    ((((runRecords trivialExt initRva [DebugRecord.proc cexProc5 cexBlock5 0,
        DebugRecord.pubsym cexPub5]).map).map Prod.fst).Nodup) ∧
    (assocFind 5 (RvaSymbols.add_procedure_symbol
        { initRva with map := [(5, cexPubCand5)] } cexProc5 cexBlock5 0).map =
      some { cexPubCand5 with is_multiple := true }) ∧
    (assocFind 5 (RvaSymbols.add_public_symbol trivialExt
        { initRva with map := [(5, cexProcCand5)] } cexPub5).map =
      some (cexProcCand5.update_public cexPub5)) :=
  ⟨candidate_per_address_invariant.1 trivialExt
      [DebugRecord.proc cexProc5 cexBlock5 0, DebugRecord.pubsym cexPub5],
    (candidate_per_address_invariant.2.1 { initRva with map := [(5, cexPubCand5)] }
      cexProc5 cexBlock5 0 cexPubCand5 (by rfl)).1,
    (candidate_per_address_invariant.2.2 trivialExt
      { initRva with map := [(5, cexProcCand5)] } cexPub5 5 cexProcCand5
      (by rfl) (by rfl) (by rfl) (by rfl)).1⟩

end DumpSyms
